import Mathlib

/-!
Verification of the organization-tag core of KnowHub-Go: the tag store
(repository layer), the tag directory service, tree materialization and the
breadth-first effective-tag resolver, shallowly embedded from the Go source.

The backing table `organization_tags` is modelled as a `List OrganizationTag`
(one element per row); gorm timestamps are modelled as a `Nat` clock passed
explicitly to mutating operations.
-/

set_option autoImplicit false

/-- One row of the `organization_tags` table (`model.OrganizationTag`). -/
structure OrganizationTag where
  tagID : String
  name : String
  description : String
  parentTag : Option String
  createdBy : String
  updatedBy : String
  createdAt : Nat
  updatedAt : Nat
  deriving Repr, DecidableEq

/-- The error sentinels of the repository and service layers (Go `error`
values compared with `errors.Is`). -/
inductive Err
  | recordNotFound
  | repoHasChildren
  | invalidArgument
  | duplicateKey
  | invalidInput
  | orgTagNotFound
  | orgTagAlreadyExists
  | orgTagHasChildren
  | internal
  deriving Repr, DecidableEq

/-- Go `strings.TrimSpace`: strip leading and trailing whitespace. -/
def trimSpace (s : String) : String :=
  ⟨((s.data.dropWhile Char.isWhitespace).reverse.dropWhile Char.isWhitespace).reverse⟩

/-- The store: the rows of the `organization_tags` table, in insertion order. -/
abbrev Store := List OrganizationTag

/-! ## Repository layer (`organizationTagRepository`, src/unnamed/part_003)

Each operation is the translation of the corresponding method; gorm's
`First`/`Find`/`Count`/`Delete` over `tag_id = ?` / `parent_tag = ?` become
`find?`/`filter` over the row list.  The two delete operations run inside a
single transaction in the source; here a transaction is a pure function
from the store to `Except Err Store` (an error means the transaction is
rolled back, i.e. the store is unchanged).
-/

/-- Translation of `organizationTagRepository.Create`: reject empty ids; a duplicate primary
key makes the database insert fail. -/
def repoCreate (s : Store) (tag : OrganizationTag) : Except Err Store :=
  if tag.tagID = "" then .error .invalidArgument
  else if s.any (fun t => t.tagID == tag.tagID) then .error .duplicateKey
  else .ok (s ++ [tag])

/-- Translation of `organizationTagRepository.FindByID`: `First` over `tag_id = ?`. -/
def repoFindByID (s : Store) (id : String) : Except Err OrganizationTag :=
  if id = "" then .error .invalidArgument
  else
    match s.find? (fun t => t.tagID == id) with
    | some t => .ok t
    | none => .error .recordNotFound

/-- The row produced by `Update`'s
`Select("name","description","parent_tag","updated_by").Updates(tag)` for a
matched row `t` (gorm refreshes `updated_at` on every update). -/
def applyUpdate (tag t : OrganizationTag) (now : Nat) : OrganizationTag :=
  { t with name := tag.name, description := tag.description,
           parentTag := tag.parentTag, updatedBy := tag.updatedBy,
           updatedAt := now }

/-- Translation of `organizationTagRepository.Update`: update the four selected columns of
every row with the given `tag_id`; `RowsAffected == 0` means the id did not
exist and yields `gorm.ErrRecordNotFound`. -/
def repoUpdate (s : Store) (tag : OrganizationTag) (now : Nat) : Except Err Store :=
  if tag.tagID = "" then .error .invalidArgument
  else if (s.filter (fun t => t.tagID == tag.tagID)).length = 0 then
    .error .recordNotFound
  else
    .ok (s.map (fun t => if t.tagID == tag.tagID then applyUpdate tag t now else t))

/-- Translation of `organizationTagRepository.Delete` (protect delete): inside one
transaction, confirm the row exists, count direct children, refuse with
`ErrOrgTagHasChildren` when the count is positive, otherwise delete. -/
def repoDelete (s : Store) (tagID : String) : Except Err Store :=
  if tagID = "" then .error .invalidArgument
  else
    match s.find? (fun t => t.tagID == tagID) with
    | none => .error .recordNotFound
    | some _ =>
      if 0 < (s.filter (fun t => t.parentTag == some tagID)).length then
        .error .repoHasChildren
      else
        let remaining := s.filter (fun t => !(t.tagID == tagID))
        if s.length - remaining.length = 0 then .error .recordNotFound
        else .ok remaining

/-- The row transformation of the reparent step's SQL update (`UPDATE ...
SET parent_tag = ? WHERE parent_tag = ?`): rows whose `parent_tag` is the
target id are re-pointed at the target's own parent (gorm refreshing
`updated_at`), all others pass through. -/
def reparentRow (parentOfTarget : Option String) (tagID : String) (now : Nat)
    (t : OrganizationTag) : OrganizationTag :=
  if t.parentTag == some tagID then
    { t with parentTag := parentOfTarget, updatedAt := now }
  else t

/-- Translation of `organizationTagRepository.DeleteAndReparentChildren`: inside one
transaction, load the target row, re-point every direct child's
`parent_tag` to the target's own `parent_tag`, then delete the target. -/
def repoDeleteAndReparentChildren (s : Store) (tagID : String) (now : Nat) :
    Except Err Store :=
  if tagID = "" then .error .invalidArgument
  else
    match s.find? (fun t => t.tagID == tagID) with
    | none => .error .recordNotFound
    | some current =>
      let reparented := s.map (reparentRow current.parentTag tagID now)
      let remaining := reparented.filter (fun t => !(t.tagID == tagID))
      if reparented.length - remaining.length = 0 then .error .recordNotFound
      else .ok remaining

/-! ## Service layer (`orgTagService`, src/internal/service/org_tag_service.go) -/

/-- Translation of `service.normalizeOptionalTagID`: `nil` and blank strings become `none`,
anything else is trimmed. -/
def normalizeOptionalTagID (raw : Option String) : Option String :=
  match raw with
  | none => none
  | some s =>
    let trimmed := trimSpace s
    if trimmed = "" then none else some trimmed

/-- Translation of `orgTagService.Create`: trim and validate the inputs, reject duplicate
ids and missing parents, default the actor, then persist via the store.
Returns the created row together with the new store. -/
def svcCreate (s : Store) (tagID name description : String)
    (parentTag : Option String) (actor : String) (now : Nat) :
    Except Err (OrganizationTag × Store) :=
  let tagID := trimSpace tagID
  let name := trimSpace name
  if tagID = "" ∨ name = "" then .error .invalidInput
  else
    let normalizedParent := normalizeOptionalTagID parentTag
    if normalizedParent = some tagID then .error .invalidInput
    else
      match repoFindByID s tagID with
      | .ok _ => .error .orgTagAlreadyExists
      | .error e =>
        if e = .recordNotFound then
          let checkParent : Except Err Unit :=
            match normalizedParent with
            | none => .ok ()
            | some p =>
              match repoFindByID s p with
              | .ok _ => .ok ()
              | .error e2 =>
                if e2 = .recordNotFound then .error .orgTagNotFound
                else .error e2
          match checkParent with
          | .error e3 => .error e3
          | .ok () =>
            let actor := trimSpace actor
            let actor := if actor = "" then "system" else actor
            let tag : OrganizationTag :=
              { tagID := tagID, name := name, description := description,
                parentTag := normalizedParent, createdBy := actor,
                updatedBy := actor, createdAt := now, updatedAt := now }
            match repoCreate s tag with
            | .error e4 => .error e4
            | .ok s' => .ok (tag, s')
        else .error e

/-- Translation of `orgTagService.Delete` (protect strategy): trim and validate the id,
delegate to the repository and translate its sentinel errors. -/
def svcDelete (s : Store) (tagID : String) : Except Err Store :=
  let tagID := trimSpace tagID
  if tagID = "" then .error .invalidInput
  else
    match repoDelete s tagID with
    | .error .recordNotFound => .error .orgTagNotFound
    | .error .repoHasChildren => .error .orgTagHasChildren
    | .error e => .error e
    | .ok s' => .ok s'

/-- Translation of `orgTagService.DeleteAndReparent`: trim and validate the id, delegate to
the repository and translate `gorm.ErrRecordNotFound`. -/
def svcDeleteAndReparent (s : Store) (tagID : String) (now : Nat) : Except Err Store :=
  let tagID := trimSpace tagID
  if tagID = "" then .error .invalidInput
  else
    match repoDeleteAndReparentChildren s tagID now with
    | .error .recordNotFound => .error .orgTagNotFound
    | .error e => .error e
    | .ok s' => .ok s'

/-! ## Tree materialization (`orgTagService.GetTree`)

The source builds one mutable node per tag (pass 1), then, for each tag in
snapshot order, appends its node to its parent's `Children` when the parent
has a non-nil, non-empty id that exists in the node map, and otherwise adds
the node to the root list (pass 2).  The resulting forest is a pointer
structure; we embed its observables: which tags end up in the root list,
which node ids sit in each node's `Children` list, and the list of ids
reachable from the returned roots (`getTreeIds`, read out to depth
`tags.length`, which covers the whole forest whenever the structure is
acyclic). -/

/-- Pass 2's test for "this tag hangs under its parent": non-nil, non-empty
parent id that exists in the pass-1 node map (whose keys are the tag ids). -/
def hasPresentParent (tags : List OrganizationTag) (t : OrganizationTag) : Bool :=
  match t.parentTag with
  | some p => p != "" && (tags.map (fun u => u.tagID)).contains p
  | none => false

/-- The tags whose nodes are placed in the returned root list. -/
def treeRootTags (tags : List OrganizationTag) : List OrganizationTag :=
  tags.filter (fun t => !hasPresentParent tags t)

/-- The ids of the nodes in the returned root list. -/
def rootIds (tags : List OrganizationTag) : List String :=
  (treeRootTags tags).map (fun t => t.tagID)

/-- The ids appended (in snapshot order) to the `Children` list of the node
for `p`. -/
def treeChildren (tags : List OrganizationTag) (p : String) : List String :=
  (tags.filter (fun t => hasPresentParent tags t && t.parentTag == some p)).map
    (fun t => t.tagID)

/-- The ids in the subtree hanging under `id`, in preorder, read out to the
given depth. -/
def subtreeIds (tags : List OrganizationTag) : Nat → String → List String
  | 0, _ => []
  | fuel + 1, id => id :: (treeChildren tags id).flatMap (subtreeIds tags fuel)

/-- All ids appearing in the forest returned by `GetTree`, read out to depth
`tags.length` from the roots. -/
def getTreeIds (tags : List OrganizationTag) : List String :=
  (treeRootTags tags).flatMap (fun t => subtreeIds tags tags.length t.tagID)

/-- The edge a tag's node hangs under in the materialized forest: `some p`
when the tag has a present parent `p`, `none` when the id is absent from the
snapshot or the tag is a root. -/
def treeParent (tags : List OrganizationTag) (id : String) : Option String :=
  match tags.find? (fun t => t.tagID == id) with
  | none => none
  | some t => if hasPresentParent tags t then t.parentTag else none

/-- Follow `treeParent` upward `k` times. -/
def iterUp (tags : List OrganizationTag) : Nat → String → Option String
  | 0, id => some id
  | k + 1, id =>
    match treeParent tags id with
    | none => none
    | some p => iterUp tags k p

/-- The upward parent chain from `id` reaches a root within `n - 1` steps. -/
def chainTerm (tags : List OrganizationTag) : Nat → String → Bool
  | 0, _ => false
  | n + 1, id =>
    match treeParent tags id with
    | none => true
    | some p => chainTerm tags n p

/-- Every stored tag's upward parent chain terminates: the present-parent
edges of the snapshot form no cycle. -/
def acyclic (tags : List OrganizationTag) : Bool :=
  tags.all (fun t => chainTerm tags tags.length t.tagID)

/-! ## Effective-tag resolver (`userService.GetUserEffectiveOrgTags`,
src/internal/service/user_service.go lines 937-997)

The loop state is the FIFO `queue`, the `visited` id set (a list, newest
first) and the accumulated `result`.  The Go loop is while-based; here it is
fuel-indexed, `none` meaning the fuel ran out (`resolveEffectiveTags` passes
`seeds.length + tags.length`, which theorem `c5_resolver_terminates` proves
is always enough). -/

/-- The `tagByID` index: id → tag. -/
def tagByID (tags : List OrganizationTag) (id : String) : Option OrganizationTag :=
  tags.find? (fun t => t.tagID == id)

/-- The `children` index: parent id → child ids, built from all tags with a
non-nil, non-empty `parent_tag`, in snapshot order. -/
def childrenOf (tags : List OrganizationTag) (p : String) : List String :=
  (tags.filter (fun t =>
    match t.parentTag with
    | some q => q != "" && q == p
    | none => false)).map (fun t => t.tagID)

/-- Iteration potential of the BFS loop: the queue length plus the number of
tags whose (non-nil, non-empty) parent is still unvisited.  Each loop
iteration strictly decreases it, which bounds the number of iterations. -/
def pendingChildren (tags : List OrganizationTag) (visited : List String) : Nat :=
  (tags.filter (fun t =>
    match t.parentTag with
    | some p => p != "" && !visited.contains p
    | none => false)).length

/-- BFS loop body of `GetUserEffectiveOrgTags`: pop the queue head, skip it
when visited, fail with `ErrOrgTagNotFound` when the id has no tag, else
append the tag to the result and enqueue its unvisited children. -/
def bfsLoop (tags : List OrganizationTag) :
    Nat → List String → List String → List OrganizationTag →
    Option (Except Err (List OrganizationTag))
  | _, [], _, result => some (.ok result)
  | 0, _ :: _, _, _ => none
  | fuel + 1, id :: rest, visited, result =>
    if visited.contains id then
      bfsLoop tags fuel rest visited result
    else
      let visited' := id :: visited
      match tagByID tags id with
      | none => some (.error .orgTagNotFound)
      | some tag =>
        bfsLoop tags fuel
          (rest ++ (childrenOf tags id).filter (fun c => !visited'.contains c))
          visited' (result ++ [tag])

/-- The effective-tag resolution of `GetUserEffectiveOrgTags` given the seed
ids parsed from the user record and the snapshot returned by `FindAll`:
empty seeds short-circuit to an empty result, otherwise the BFS loop runs
from the seeds. -/
def resolveEffectiveTags (tags : List OrganizationTag) (seeds : List String) :
    Option (Except Err (List OrganizationTag)) :=
  if seeds.isEmpty then some (.ok [])
  else bfsLoop tags (seeds.length + tags.length) seeds [] []

/-- The ids reachable from the seeds by descending child links — the set the
resolver is specified to return. -/
inductive Reach (tags : List OrganizationTag) (seeds : List String) : String → Prop
  | seed {id : String} : id ∈ seeds → Reach tags seeds id
  | child {p c : String} : Reach tags seeds p → c ∈ childrenOf tags p →
      Reach tags seeds c

/-! ## General helper lemmas -/

/-- In a list whose images under `g` are distinct, `find?` on the image of a
member returns exactly that member. -/
theorem find?_eq_of_nodup_map {α β : Type} [BEq β] [LawfulBEq β] {g : α → β}
    {l : List α} (hnd : (l.map g).Nodup) {t : α} (ht : t ∈ l) :
    l.find? (fun u => g u == g t) = some t := by
  induction l with
  | nil => cases ht
  | cons u us ih =>
    rw [List.map_cons, List.nodup_cons] at hnd
    rcases List.mem_cons.mp ht with rfl | hmem
    · simp [List.find?_cons_eq_some]
    · have hne : (g u == g t) = false := by
        rw [beq_eq_false_iff_ne]
        intro heq
        exact hnd.1 (heq ▸ List.mem_map_of_mem g hmem)
      rw [List.find?_cons_of_neg _ (by simp [hne]), ih hnd.2 hmem]

/-! ## C1, C7, C8: service-layer guard behaviour -/

/-- C1: for every stored tag `T` with at least one direct child, the
protect-delete operation on `T`'s id returns the `HasChildren` error; since
the transaction aborts, the returned value carries no new store, so `T` and
all of its children are untouched. -/
theorem c1_protect_delete_refuses (s : Store) (T c : OrganizationTag)
    (hT : T ∈ s) (hTrim : trimSpace T.tagID = T.tagID) (hne : T.tagID ≠ "")
    (hc : c ∈ s) (hp : c.parentTag = some T.tagID) :
    svcDelete s T.tagID = .error .orgTagHasChildren := by
  have hchild : 0 < (s.filter (fun t => t.parentTag == some T.tagID)).length :=
    List.length_pos_of_mem (List.mem_filter.mpr ⟨hc, by simp [hp]⟩)
  unfold svcDelete repoDelete
  rw [hTrim]
  cases hfind : s.find? (fun t => t.tagID == T.tagID) with
  | none =>
    rw [List.find?_eq_none] at hfind
    exact absurd (by simp) (hfind T hT)
  | some u => simp [hne, hfind, hchild]

/-- C7: creating a tag under an id that already exists returns
`AlreadyExists`; the error return means no row is inserted and the existing
record is untouched.  The other `Create` validations (non-blank name, no
self-parent) are assumed to pass, since they are checked first. -/
theorem c7_create_duplicate_refused (s : Store)
    (tagID name description : String) (parentTag : Option String)
    (actor : String) (now : Nat) (t : OrganizationTag) (ht : t ∈ s)
    (hid : t.tagID = trimSpace tagID) (hidne : trimSpace tagID ≠ "")
    (hname : trimSpace name ≠ "")
    (hpar : normalizeOptionalTagID parentTag ≠ some (trimSpace tagID)) :
    svcCreate s tagID name description parentTag actor now =
      .error .orgTagAlreadyExists := by
  unfold svcCreate repoFindByID
  cases hfind : s.find? (fun u => u.tagID == trimSpace tagID) with
  | none =>
    rw [List.find?_eq_none] at hfind
    exact absurd (by simp [hid]) (hfind t ht)
  | some u => simp [hidne, hname, hpar, hfind]

/-- C8: any input whose trimmed id is empty, whose trimmed name is empty, or
whose normalized parent equals the trimmed id is rejected with
`InvalidInput`; the result is the same for every store `s`, reflecting that
validation happens before any store call and the store is unchanged. -/
theorem c8_create_validation_fails_fast (s : Store)
    (tagID name description : String) (parentTag : Option String)
    (actor : String) (now : Nat)
    (h : trimSpace tagID = "" ∨ trimSpace name = "" ∨
        normalizeOptionalTagID parentTag = some (trimSpace tagID)) :
    svcCreate s tagID name description parentTag actor now =
      .error .invalidInput := by
  unfold svcCreate
  rcases h with h | h | h
  · simp [h]
  · simp [h]
  · by_cases h1 : trimSpace tagID = "" ∨ trimSpace name = ""
    · simp [h1]
    · simp [h1, h]

/-- Removing the one element with a member's key from a list with distinct
keys shortens it by exactly one. -/
theorem filter_ne_length_of_nodup_map {α β : Type} [BEq β] [LawfulBEq β]
    {g : α → β} {l : List α} (hnd : (l.map g).Nodup) {t : α} (ht : t ∈ l) :
    (l.filter (fun u => !(g u == g t))).length + 1 = l.length := by
  induction l with
  | nil => cases ht
  | cons u us ih =>
    rw [List.map_cons, List.nodup_cons] at hnd
    rcases List.mem_cons.mp ht with rfl | hmem
    · have hrest : us.filter (fun v => !(g v == g t)) = us := by
        rw [List.filter_eq_self]
        intro a ha
        simp only [Bool.not_eq_eq_eq_not, Bool.not_true, beq_eq_false_iff_ne]
        intro heq
        exact hnd.1 (heq ▸ List.mem_map_of_mem g ha)
      simp [hrest]
    · have hne : (g u == g t) = false := by
        rw [beq_eq_false_iff_ne]
        intro heq
        exact hnd.1 (heq ▸ List.mem_map_of_mem g hmem)
      have := ih hnd.2 hmem
      simp only [List.filter_cons, hne, Bool.not_false, if_pos, List.length_cons]
      omega

/-! ## C9: store update frame -/

/-- C9: `Update` overwrites exactly the `name`, `description`, `parent_tag`
and `updated_by` columns of the rows carrying the given id (plus the
store-managed `updated_at` clock), leaving `tag_id`, `created_by` and
`created_at` untouched and every other row unchanged; when no row carries
the id it fails with `NotFound` (and, the transaction failing, changes
nothing). -/
theorem c9_update_frame (s : Store) (tag : OrganizationTag) (now : Nat)
    (hid : tag.tagID ≠ "") :
    ((∀ t ∈ s, t.tagID ≠ tag.tagID) →
      repoUpdate s tag now = .error .recordNotFound) ∧
    ((∃ t ∈ s, t.tagID = tag.tagID) →
      ∃ f : OrganizationTag → OrganizationTag,
        repoUpdate s tag now = .ok (s.map f) ∧
        (∀ t, t.tagID ≠ tag.tagID → f t = t) ∧
        (∀ t, t.tagID = tag.tagID →
          (f t).tagID = t.tagID ∧ (f t).createdBy = t.createdBy ∧
          (f t).createdAt = t.createdAt ∧ (f t).name = tag.name ∧
          (f t).description = tag.description ∧
          (f t).parentTag = tag.parentTag ∧
          (f t).updatedBy = tag.updatedBy ∧ (f t).updatedAt = now)) := by
  constructor
  · intro hnone
    have hfil : s.filter (fun t => t.tagID == tag.tagID) = [] := by
      rw [List.filter_eq_nil_iff]
      intro a ha
      simp [hnone a ha]
    simp [repoUpdate, hid, hfil]
  · rintro ⟨t, ht, heq⟩
    refine ⟨fun u => if u.tagID == tag.tagID then applyUpdate tag u now else u,
      ?_, ?_, ?_⟩
    · have hmem : t ∈ s.filter (fun u => u.tagID == tag.tagID) :=
        List.mem_filter.mpr ⟨ht, by simp [heq]⟩
      have hlen : (s.filter (fun u => u.tagID == tag.tagID)).length ≠ 0 :=
        Nat.pos_iff_ne_zero.mp (List.length_pos_of_mem hmem)
      simp [repoUpdate, hid, hlen]
    · intro u hu
      simp [hu]
    · intro u hu
      simp [hu, applyUpdate]

/-! ## C2: reparent delete -/

/-- C2: a successful reparent-delete of a stored tag `T` removes exactly
`T`'s row, re-points every former direct child at `T`'s own parent (`none`
when `T` was a root, so those children become roots), leaves every other
row untouched, and reduces to a plain delete when `T` has no children. -/
theorem c2_reparent_delete (s : Store) (T : OrganizationTag) (now : Nat)
    (hnd : (s.map (fun t => t.tagID)).Nodup) (hT : T ∈ s)
    (hne : T.tagID ≠ "") :
    ∃ s' , repoDeleteAndReparentChildren s T.tagID now = .ok s' ∧
      (∀ u ∈ s', u.tagID ≠ T.tagID) ∧
      s'.length + 1 = s.length ∧
      (∀ c ∈ s, c.tagID ≠ T.tagID →
        (c.parentTag = some T.tagID →
          { c with parentTag := T.parentTag, updatedAt := now } ∈ s') ∧
        (c.parentTag ≠ some T.tagID → c ∈ s')) ∧
      ((∀ c ∈ s, c.parentTag ≠ some T.tagID) →
        s' = s.filter (fun t => !(t.tagID == T.tagID))) := by
  have hfind : s.find? (fun t => t.tagID == T.tagID) = some T :=
    find?_eq_of_nodup_map hnd hT
  have hpres : ∀ t : OrganizationTag,
      (reparentRow T.parentTag T.tagID now t).tagID = t.tagID := by
    intro t
    unfold reparentRow
    by_cases h : t.parentTag == some T.tagID <;> simp [h]
  have hmapids :
      (s.map (reparentRow T.parentTag T.tagID now)).map (fun t => t.tagID) =
        s.map (fun t => t.tagID) := by
    rw [List.map_map]
    exact List.map_congr_left (fun a _ => hpres a)
  have hnd' :
      ((s.map (reparentRow T.parentTag T.tagID now)).map
        (fun t => t.tagID)).Nodup := by
    rw [hmapids]; exact hnd
  have hTmem' : reparentRow T.parentTag T.tagID now T ∈
      s.map (reparentRow T.parentTag T.tagID now) :=
    List.mem_map_of_mem _ hT
  have hlen := filter_ne_length_of_nodup_map hnd' hTmem'
  simp only [hpres T, List.length_map] at hlen
  have hrun : repoDeleteAndReparentChildren s T.tagID now =
      .ok ((s.map (reparentRow T.parentTag T.tagID now)).filter
        (fun t => !(t.tagID == T.tagID))) := by
    simp only [repoDeleteAndReparentChildren, if_neg hne, hfind]
    rw [if_neg (by simp only [List.length_map]; omega)]
  refine ⟨_, hrun, ?_, ?_, ?_, ?_⟩
  · intro u hu
    have := (List.mem_filter.mp hu).2
    simpa using this
  · simpa using hlen
  · intro c hc hcne
    constructor
    · intro hcp
      have hrow : reparentRow T.parentTag T.tagID now c =
          { c with parentTag := T.parentTag, updatedAt := now } := by
        unfold reparentRow
        rw [if_pos (by simp [hcp])]
      refine List.mem_filter.mpr ⟨?_, ?_⟩
      · rw [← hrow]
        exact List.mem_map_of_mem _ hc
      · simpa using hcne
    · intro hcp
      have hrow : reparentRow T.parentTag T.tagID now c = c := by
        unfold reparentRow
        rw [if_neg (by simp only [beq_iff_eq]; exact hcp)]
      refine List.mem_filter.mpr ⟨?_, ?_⟩
      · rw [← hrow]
        exact List.mem_map_of_mem _ hc
      · simpa using hcne
  · intro hnochild
    have hmapid : s.map (reparentRow T.parentTag T.tagID now) = s := by
      have hpt : ∀ a ∈ s, reparentRow T.parentTag T.tagID now a = a := by
        intro a ha
        unfold reparentRow
        rw [if_neg (by simp only [beq_iff_eq]; exact hnochild a ha)]
      calc s.map (reparentRow T.parentTag T.tagID now)
          = s.map (fun a => a) := List.map_congr_left hpt
        _ = s := List.map_id' s
    rw [hmapid]

/-! ## Resolver loop: invariants and termination potential -/

/-- Visiting a fresh id moves exactly its children out of the pending count. -/
theorem pendingChildren_cons (tags : List OrganizationTag)
    (visited : List String) (id : String) (hid : id ∉ visited) :
    pendingChildren tags visited =
      pendingChildren tags (id :: visited) + (childrenOf tags id).length := by
  have hcv : visited.contains id = false := by simpa using hid
  unfold pendingChildren childrenOf
  rw [List.length_map]
  induction tags with
  | nil => simp
  | cons t ts ih =>
    simp only [List.filter_cons]
    cases hpt : t.parentTag with
    | none => simpa using ih
    | some p =>
      simp only []
      by_cases hpe : p = ""
      · subst hpe
        simpa using ih
      · have hbne : (p != "") = true := bne_iff_ne.mpr hpe
        by_cases hpid : p = id
        · subst hpid
          have h1 : (p != "" && !visited.contains p) = true := by
            rw [hcv, hbne]; rfl
          have h2 : ¬((p != "" && !(p :: visited).contains p) = true) := by
            rw [List.contains_cons, beq_self_eq_true, Bool.true_or]
            simp
          have h3 : (p != "" && p == p) = true := by
            rw [beq_self_eq_true, hbne]; rfl
          rw [if_pos h1, if_neg h2, if_pos h3]
          simp only [List.length_cons]
          omega
        · have hbeq : (p == id) = false := beq_eq_false_iff_ne.mpr hpid
          have h3 : ¬((p != "" && p == id) = true) := by
            rw [hbeq, Bool.and_false]
            simp
          have hcontains : (id :: visited).contains p = visited.contains p := by
            rw [List.contains_cons, hbeq, Bool.false_or]
          simp only [hcontains]
          rw [if_neg h3]
          by_cases hcp : (p != "" && !visited.contains p) = true
          · rw [if_pos hcp, if_pos hcp]
            simp only [List.length_cons]
            omega
          · rw [if_neg hcp, if_neg hcp]
            exact ih

/-- Child ids always name stored tags. -/
theorem childrenOf_subset_ids (tags : List OrganizationTag) (p c : String)
    (hc : c ∈ childrenOf tags p) : c ∈ tags.map (fun t => t.tagID) := by
  unfold childrenOf at hc
  obtain ⟨t, ht, rfl⟩ := List.mem_map.mp hc
  exact List.mem_map_of_mem _ (List.mem_filter.mp ht).1

/-- Nothing is reachable from an empty seed set. -/
theorem reach_nil_elim (tags : List OrganizationTag) (d : String)
    (h : Reach tags [] d) : False := by
  induction h with
  | seed hs => exact absurd hs (List.not_mem_nil _)
  | child hp hc ih => exact ih

/-- A set of ids containing the seeds and closed under child links contains
every reachable id. -/
theorem reach_mem_of_closed (tags : List OrganizationTag)
    (seeds : List String) (vF : List String)
    (hseed : ∀ id ∈ seeds, id ∈ vF)
    (hclosed : ∀ id ∈ vF, ∀ c ∈ childrenOf tags id, c ∈ vF) :
    ∀ d, Reach tags seeds d → d ∈ vF := by
  intro d h
  induction h with
  | seed hs => exact hseed _ hs
  | child hp hc ih => exact hclosed _ ih _ hc

/-- Unfolding the BFS loop at an already-visited queue head. -/
theorem bfsLoop_skip (tags : List OrganizationTag) (fuel : Nat) (id : String)
    (rest visited : List String) (result : List OrganizationTag)
    (h : visited.contains id = true) :
    bfsLoop tags (fuel + 1) (id :: rest) visited result =
      bfsLoop tags fuel rest visited result := by
  simp only [bfsLoop]
  rw [if_pos h]

/-- Unfolding the BFS loop at a fresh queue head. -/
theorem bfsLoop_fresh (tags : List OrganizationTag) (fuel : Nat) (id : String)
    (rest visited : List String) (result : List OrganizationTag)
    (h : visited.contains id = false) :
    bfsLoop tags (fuel + 1) (id :: rest) visited result =
      (match tagByID tags id with
       | none => some (.error .orgTagNotFound)
       | some tag =>
         bfsLoop tags fuel
           (rest ++ (childrenOf tags id).filter
             (fun c => !(id :: visited).contains c))
           (id :: visited) (result ++ [tag])) := by
  simp only [bfsLoop]
  rw [if_neg (by rw [h]; exact Bool.false_ne_true)]

/-- Master lemma about one run of the BFS loop: with fuel at least the
iteration potential and the stated invariants, the loop completes, either
failing with `NotFound` because some reachable id has no stored tag, or
succeeding with a result that lists, without repetition, stored tags for a
set of ids that contains the seeds, is closed under child links, and
consists of reachable ids only. -/
theorem bfsLoop_run (tags : List OrganizationTag) (seeds : List String) :
    ∀ (fuel : Nat) (queue visited : List String)
      (result : List OrganizationTag),
    queue.length + pendingChildren tags visited ≤ fuel →
    (∀ id ∈ visited, Reach tags seeds id) →
    (∀ id ∈ queue, Reach tags seeds id) →
    (∀ id ∈ seeds, id ∈ visited ∨ id ∈ queue) →
    (∀ id ∈ visited, ∀ c ∈ childrenOf tags id, c ∈ visited ∨ c ∈ queue) →
    result.map (fun t => t.tagID) = visited.reverse →
    (∀ t ∈ result, t ∈ tags) →
    visited.Nodup →
    (∃ d : String, bfsLoop tags fuel queue visited result =
        some (.error .orgTagNotFound) ∧
      Reach tags seeds d ∧ d ∉ tags.map (fun t => t.tagID)) ∨
    (∃ (res : List OrganizationTag) (vF : List String),
      bfsLoop tags fuel queue visited result = some (.ok res) ∧
      res.map (fun t => t.tagID) = vF.reverse ∧ vF.Nodup ∧
      (∀ t ∈ res, t ∈ tags) ∧
      (∀ id ∈ vF, Reach tags seeds id) ∧
      (∀ id ∈ seeds, id ∈ vF) ∧
      (∀ id ∈ vF, ∀ c ∈ childrenOf tags id, c ∈ vF)) := by
  intro fuel
  induction fuel with
  | zero =>
    intro queue visited result hfuel h1 h2 h3 h4 h5 h6 h7
    have hq : queue = [] := by
      cases queue with
      | nil => rfl
      | cons a l => simp at hfuel
    subst hq
    right
    exact ⟨result, visited, rfl, h5, h7, h6, h1,
      fun id h => (h3 id h).resolve_right (List.not_mem_nil id),
      fun id hv c hc => (h4 id hv c hc).resolve_right (List.not_mem_nil c)⟩
  | succ fuel ih =>
    intro queue visited result hfuel h1 h2 h3 h4 h5 h6 h7
    cases queue with
    | nil =>
      right
      exact ⟨result, visited, rfl, h5, h7, h6, h1,
        fun id h => (h3 id h).resolve_right (List.not_mem_nil id),
        fun id hv c hc => (h4 id hv c hc).resolve_right (List.not_mem_nil c)⟩
    | cons id rest =>
      by_cases hv : visited.contains id = true
      · have hvm : id ∈ visited := by simpa using hv
        rw [bfsLoop_skip tags fuel id rest visited result hv]
        apply ih rest visited result
        · simp only [List.length_cons] at hfuel; omega
        · exact h1
        · exact fun x hx => h2 x (List.mem_cons_of_mem _ hx)
        · intro x hx
          rcases h3 x hx with h | h
          · exact Or.inl h
          · rcases List.mem_cons.mp h with rfl | h
            · exact Or.inl hvm
            · exact Or.inr h
        · intro x hx c hc
          rcases h4 x hx c hc with h | h
          · exact Or.inl h
          · rcases List.mem_cons.mp h with rfl | h
            · exact Or.inl hvm
            · exact Or.inr h
        · exact h5
        · exact h6
        · exact h7
      · have hvf : visited.contains id = false := Bool.eq_false_iff.mpr hv
        have hvm : id ∉ visited := by simpa using hvf
        cases htag : tagByID tags id with
        | none =>
          left
          refine ⟨id, ?_, h2 id (List.mem_cons_self _ _), ?_⟩
          · rw [bfsLoop_fresh tags fuel id rest visited result hvf, htag]
          · unfold tagByID at htag
            rw [List.find?_eq_none] at htag
            intro hmem
            obtain ⟨t, ht, htid⟩ := List.mem_map.mp hmem
            exact htag t ht (by simp [htid])
        | some tag =>
          have htagmem : tag ∈ tags := List.mem_of_find?_eq_some htag
          have htagid : tag.tagID = id := by
            have := List.find?_some htag
            simpa using this
          rw [bfsLoop_fresh tags fuel id rest visited result hvf, htag]
          apply ih
          · have hsplit := pendingChildren_cons tags visited id hvm
            have hflen : ((childrenOf tags id).filter
                (fun c => !(id :: visited).contains c)).length ≤
                  (childrenOf tags id).length := List.length_filter_le _ _
            simp only [List.length_append, List.length_cons] at hfuel ⊢
            omega
          · intro x hx
            rcases List.mem_cons.mp hx with rfl | hx
            · exact h2 x (List.mem_cons_self _ _)
            · exact h1 x hx
          · intro x hx
            rcases List.mem_append.mp hx with hx | hx
            · exact h2 x (List.mem_cons_of_mem _ hx)
            · exact Reach.child (h2 id (List.mem_cons_self _ _))
                (List.mem_filter.mp hx).1
          · intro x hx
            rcases h3 x hx with h | h
            · exact Or.inl (List.mem_cons_of_mem _ h)
            · rcases List.mem_cons.mp h with rfl | h
              · exact Or.inl (List.mem_cons_self _ _)
              · exact Or.inr (List.mem_append_left _ h)
          · intro x hx c hc
            rcases List.mem_cons.mp hx with rfl | hx
            · by_cases hcv : c ∈ x :: visited
              · exact Or.inl hcv
              · refine Or.inr (List.mem_append_right _ ?_)
                exact List.mem_filter.mpr ⟨hc, by simpa using hcv⟩
            · rcases h4 x hx c hc with h | h
              · exact Or.inl (List.mem_cons_of_mem _ h)
              · rcases List.mem_cons.mp h with rfl | h
                · exact Or.inl (List.mem_cons_self _ _)
                · exact Or.inr (List.mem_append_left _ h)
          · rw [List.map_append, h5]
            simp [htagid]
          · intro t ht
            rcases List.mem_append.mp ht with h | h
            · exact h6 t h
            · rw [List.mem_singleton.mp h]
              exact htagmem
          · exact List.nodup_cons.mpr ⟨hvm, h7⟩

/-- The master lemma instantiated at the initial loop state used by
`resolveEffectiveTags` for a non-empty seed list. -/
theorem resolveEffectiveTags_run (tags : List OrganizationTag)
    (seeds : List String) (hs : seeds.isEmpty = false) :
    (∃ d : String, resolveEffectiveTags tags seeds =
        some (.error .orgTagNotFound) ∧
      Reach tags seeds d ∧ d ∉ tags.map (fun t => t.tagID)) ∨
    (∃ (res : List OrganizationTag) (vF : List String),
      resolveEffectiveTags tags seeds = some (.ok res) ∧
      res.map (fun t => t.tagID) = vF.reverse ∧ vF.Nodup ∧
      (∀ t ∈ res, t ∈ tags) ∧
      (∀ id ∈ vF, Reach tags seeds id) ∧
      (∀ id ∈ seeds, id ∈ vF) ∧
      (∀ id ∈ vF, ∀ c ∈ childrenOf tags id, c ∈ vF)) := by
  have hres : resolveEffectiveTags tags seeds =
      bfsLoop tags (seeds.length + tags.length) seeds [] [] := by
    unfold resolveEffectiveTags
    rw [hs, if_neg Bool.false_ne_true]
  rw [hres]
  have hpend : pendingChildren tags [] ≤ tags.length := by
    unfold pendingChildren
    exact List.length_filter_le _ _
  exact bfsLoop_run tags seeds (seeds.length + tags.length) seeds [] []
    (by omega)
    (fun id h => absurd h (List.not_mem_nil id))
    (fun id h => Reach.seed h)
    (fun id h => Or.inr h)
    (fun id h => absurd h (List.not_mem_nil id))
    rfl
    (fun t ht => absurd ht (List.not_mem_nil t))
    List.nodup_nil

/-! ## C5, C6, C3, C10: the effective-tag resolver -/

/-- C5: the BFS resolution loop terminates on every finite snapshot and seed
list, including snapshots whose parent links form multi-hop cycles: the run
never exhausts the `seeds.length + tags.length` fuel, because the
visited-set ensures each id is processed at most once. -/
theorem c5_resolver_terminates (tags : List OrganizationTag)
    (seeds : List String) : resolveEffectiveTags tags seeds ≠ none := by
  by_cases hs : seeds.isEmpty = true
  · unfold resolveEffectiveTags
    rw [if_pos hs]
    simp
  · rcases resolveEffectiveTags_run tags seeds (Bool.eq_false_iff.mpr hs) with
      ⟨d, heq, _, _⟩ | ⟨res, vF, heq, _⟩
    · rw [heq]; simp
    · rw [heq]; simp

/-- C6: if any id processed by the resolver — a seed or an id reached
through child links — has no tag in the loaded snapshot, the whole
resolution fails with `NotFound` and returns no partial result. -/
theorem c6_dangling_reachable_fails (tags : List OrganizationTag)
    (seeds : List String)
    (h : ∃ d : String, Reach tags seeds d ∧ d ∉ tags.map (fun t => t.tagID)) :
    resolveEffectiveTags tags seeds = some (.error .orgTagNotFound) := by
  obtain ⟨d, hreach, hnot⟩ := h
  have hs : seeds.isEmpty = false := by
    cases seeds with
    | nil => exact (reach_nil_elim tags d hreach).elim
    | cons a l => rfl
  rcases resolveEffectiveTags_run tags seeds hs with
    ⟨d', heq, _, _⟩ | ⟨res, vF, heq, hmap, hndF, hsub, hreachF, hseedF, hcl⟩
  · exact heq
  · exfalso
    have hvF : d ∈ vF := reach_mem_of_closed tags seeds vF hseedF hcl d hreach
    have hmem : d ∈ res.map (fun u => u.tagID) := by
      rw [hmap, List.mem_reverse]
      exact hvF
    obtain ⟨u, hu, huid⟩ := List.mem_map.mp hmem
    exact hnot (huid ▸ List.mem_map_of_mem _ (hsub u hu))

/-- C3: when every reachable id has a tag in the snapshot, the resolver
succeeds and returns exactly the tags of the ids reachable from the seeds
by descending child links — independent of the order of the snapshot. -/
theorem c3_resolver_exact_closure (tags : List OrganizationTag)
    (seeds : List String) (hseeds : seeds ≠ [])
    (hnd : (tags.map (fun t => t.tagID)).Nodup)
    (hpresent : ∀ id, Reach tags seeds id → id ∈ tags.map (fun t => t.tagID)) :
    ∃ res : List OrganizationTag,
      resolveEffectiveTags tags seeds = some (.ok res) ∧
      ∀ t : OrganizationTag, t ∈ res ↔ (t ∈ tags ∧ Reach tags seeds t.tagID) := by
  have hs : seeds.isEmpty = false := by
    cases seeds with
    | nil => exact absurd rfl hseeds
    | cons a l => rfl
  rcases resolveEffectiveTags_run tags seeds hs with
    ⟨d, heq, hreach, hnot⟩ |
    ⟨res, vF, heq, hmap, hndF, hsub, hreachF, hseedF, hcl⟩
  · exact absurd (hpresent d hreach) hnot
  · refine ⟨res, heq, fun t => ⟨fun ht => ?_, fun hin => ?_⟩⟩
    · refine ⟨hsub t ht, ?_⟩
      have hmem : t.tagID ∈ vF := by
        rw [← List.mem_reverse, ← hmap]
        exact List.mem_map_of_mem _ ht
      exact hreachF _ hmem
    · obtain ⟨htags, hreach⟩ := hin
      have hvF : t.tagID ∈ vF :=
        reach_mem_of_closed tags seeds vF hseedF hcl _ hreach
      have hmem : t.tagID ∈ res.map (fun u => u.tagID) := by
        rw [hmap, List.mem_reverse]
        exact hvF
      obtain ⟨u, hu, huid⟩ := List.mem_map.mp hmem
      have hut : u = t := List.inj_on_of_nodup_map hnd (hsub u hu) htags huid
      exact hut ▸ hu

/-- C10: a successful resolution never lists a tag twice, whatever the seed
list (repetitions included) and whatever the snapshot's parent links
(convergence and cycles included): the result's ids are pairwise distinct,
hence so are its tags. -/
theorem c10_no_duplicate_results (tags : List OrganizationTag)
    (seeds : List String) (res : List OrganizationTag)
    (h : resolveEffectiveTags tags seeds = some (.ok res)) :
    (res.map (fun t => t.tagID)).Nodup ∧ res.Nodup := by
  by_cases hs : seeds.isEmpty = true
  · unfold resolveEffectiveTags at h
    rw [if_pos hs] at h
    obtain rfl : res = [] := (Except.ok.inj (Option.some.inj h)).symm
    simp
  · rcases resolveEffectiveTags_run tags seeds (Bool.eq_false_iff.mpr hs) with
      ⟨d, heq, _, _⟩ | ⟨res', vF, heq, hmap, hndF, _⟩
    · rw [heq] at h
      exact absurd (Option.some.inj h) (by simp)
    · rw [heq] at h
      obtain rfl : res' = res := Except.ok.inj (Option.some.inj h)
      have hmapnd : (res'.map (fun t => t.tagID)).Nodup := by
        rw [hmap]
        exact List.nodup_reverse.mpr hndF
      exact ⟨hmapnd, List.Nodup.of_map _ hmapnd⟩

/-! ## C4: tree materialization counting -/

/-- Unfold `hasPresentParent` into its propositional content. -/
theorem hasPresentParent_iff (tags : List OrganizationTag)
    (t : OrganizationTag) :
    hasPresentParent tags t = true ↔
      ∃ p, t.parentTag = some p ∧ p ≠ "" ∧
        p ∈ tags.map (fun u => u.tagID) := by
  unfold hasPresentParent
  cases hpt : t.parentTag with
  | none => simp
  | some p => simp

/-- Child lists of the materialized forest have no duplicate ids. -/
theorem treeChildren_nodup (tags : List OrganizationTag) (p : String)
    (hnd : (tags.map (fun t => t.tagID)).Nodup) :
    (treeChildren tags p).Nodup := by
  unfold treeChildren
  exact List.Nodup.sublist ((List.filter_sublist tags).map _) hnd

/-- The root list of the materialized forest has no duplicate ids. -/
theorem rootIds_nodup (tags : List OrganizationTag)
    (hnd : (tags.map (fun t => t.tagID)).Nodup) :
    (rootIds tags).Nodup := by
  unfold rootIds treeRootTags
  exact List.Nodup.sublist ((List.filter_sublist tags).map _) hnd

/-- Child ids of the materialized forest name stored tags. -/
theorem treeChildren_subset_ids (tags : List OrganizationTag) (p c : String)
    (hc : c ∈ treeChildren tags p) : c ∈ tags.map (fun t => t.tagID) := by
  unfold treeChildren at hc
  obtain ⟨t, ht, rfl⟩ := List.mem_map.mp hc
  exact List.mem_map_of_mem _ (List.mem_filter.mp ht).1

/-- With distinct ids, hanging under `p`'s node is the same as having tree
parent `p`. -/
theorem mem_treeChildren_iff (tags : List OrganizationTag)
    (hnd : (tags.map (fun t => t.tagID)).Nodup) (p c : String) :
    c ∈ treeChildren tags p ↔ treeParent tags c = some p := by
  constructor
  · intro hc
    unfold treeChildren at hc
    obtain ⟨t, htf, rfl⟩ := List.mem_map.mp hc
    have ht := List.mem_filter.mp htf
    have hcond := ht.2
    rw [Bool.and_eq_true] at hcond
    have hfind : tags.find? (fun u => u.tagID == t.tagID) = some t :=
      find?_eq_of_nodup_map hnd ht.1
    unfold treeParent
    rw [hfind]
    simp only []
    rw [if_pos hcond.1]
    exact beq_iff_eq.mp hcond.2
  · intro hp
    unfold treeParent at hp
    cases hfind : tags.find? (fun u => u.tagID == c) with
    | none => rw [hfind] at hp; cases hp
    | some t =>
      rw [hfind] at hp
      simp only [] at hp
      by_cases hpp : hasPresentParent tags t = true
      · rw [if_pos hpp] at hp
        have htmem : t ∈ tags := List.mem_of_find?_eq_some hfind
        have htid : t.tagID = c := by
          have := List.find?_some hfind
          simpa using this
        unfold treeChildren
        refine List.mem_map.mpr ⟨t, List.mem_filter.mpr ⟨htmem, ?_⟩, htid⟩
        rw [Bool.and_eq_true]
        exact ⟨hpp, by simp [hp]⟩
      · rw [if_neg hpp] at hp
        cases hp

/-- With distinct ids, being a root of the materialized forest is the same
as being stored with no tree parent. -/
theorem mem_rootIds_iff (tags : List OrganizationTag)
    (hnd : (tags.map (fun t => t.tagID)).Nodup) (r : String) :
    r ∈ rootIds tags ↔
      r ∈ tags.map (fun t => t.tagID) ∧ treeParent tags r = none := by
  constructor
  · intro hr
    unfold rootIds treeRootTags at hr
    obtain ⟨t, htf, rfl⟩ := List.mem_map.mp hr
    have ht := List.mem_filter.mp htf
    have hroot : hasPresentParent tags t = false := by
      have h2 := ht.2
      cases h : hasPresentParent tags t
      · rfl
      · rw [h] at h2; cases h2
    refine ⟨List.mem_map_of_mem _ ht.1, ?_⟩
    have hfind : tags.find? (fun u => u.tagID == t.tagID) = some t :=
      find?_eq_of_nodup_map hnd ht.1
    unfold treeParent
    rw [hfind]
    simp only []
    rw [if_neg (by rw [hroot]; exact Bool.false_ne_true)]
  · rintro ⟨hr, hp⟩
    obtain ⟨t, htmem, rfl⟩ := List.mem_map.mp hr
    have hfind : tags.find? (fun u => u.tagID == t.tagID) = some t :=
      find?_eq_of_nodup_map hnd htmem
    unfold treeParent at hp
    rw [hfind] at hp
    simp only [] at hp
    by_cases hpp : hasPresentParent tags t = true
    · rw [if_pos hpp] at hp
      obtain ⟨q, hq, -, -⟩ := (hasPresentParent_iff tags t).mp hpp
      rw [hp] at hq
      cases hq
    · unfold rootIds treeRootTags
      refine List.mem_map.mpr ⟨t, List.mem_filter.mpr ⟨htmem, ?_⟩, rfl⟩
      rw [Bool.eq_false_iff.mpr hpp]
      rfl

/-- A tree-parent step stays inside the stored ids. -/
theorem treeParent_mem_ids (tags : List OrganizationTag) (x p : String)
    (h : treeParent tags x = some p) : p ∈ tags.map (fun t => t.tagID) := by
  unfold treeParent at h
  cases hfind : tags.find? (fun u => u.tagID == x) with
  | none => rw [hfind] at h; cases h
  | some t =>
    rw [hfind] at h
    simp only [] at h
    by_cases hpp : hasPresentParent tags t = true
    · rw [if_pos hpp] at h
      obtain ⟨q, hq, -, hqmem⟩ := (hasPresentParent_iff tags t).mp hpp
      rw [hq] at h
      cases h
      exact hqmem
    · rw [if_neg hpp] at h
      cases h

/-- Unfolding `iterUp` at zero. -/
theorem iterUp_zero (tags : List OrganizationTag) (x : String) :
    iterUp tags 0 x = some x := rfl

/-- Unfolding `iterUp` one step at the head. -/
theorem iterUp_head (tags : List OrganizationTag) (k : Nat) (x : String) :
    iterUp tags (k + 1) x =
      (match treeParent tags x with
       | none => none
       | some p => iterUp tags k p) := rfl

/-- Appending an upward step at the far end of an `iterUp` chain. -/
theorem iterUp_succ (tags : List OrganizationTag) :
    ∀ (k : Nat) (x : String),
    iterUp tags (k + 1) x = (iterUp tags k x).bind (treeParent tags) := by
  intro k
  induction k with
  | zero =>
    intro x
    rw [iterUp_head tags 0 x, iterUp_zero]
    cases h : treeParent tags x <;> simp [h, iterUp_zero]
  | succ k ih =>
    intro x
    rw [iterUp_head tags (k + 1) x, iterUp_head tags k x]
    cases h : treeParent tags x with
    | none => simp
    | some p => simp [ih p]

/-- Past a root, the upward chain is exhausted. -/
theorem iterUp_root_stop (tags : List OrganizationTag) (r : String)
    (hr : treeParent tags r = none) (m : Nat) :
    iterUp tags (m + 1) r = none := by
  simp [iterUp, hr]

/-- Splitting an upward chain. -/
theorem iterUp_add (tags : List OrganizationTag) :
    ∀ (a b : Nat) (x : String),
    iterUp tags (a + b) x = (iterUp tags b x).bind (iterUp tags a) := by
  intro a b
  induction b generalizing a with
  | zero => intro x; simp [iterUp, Option.bind]
  | succ b ih =>
    intro x
    cases h : treeParent tags x with
    | none => simp [iterUp, h]
    | some p => simp [iterUp, h, ih a p]

/-- A terminating parent chain yields a root hit within the bound. -/
theorem chainTerm_spec (tags : List OrganizationTag) :
    ∀ (n : Nat) (x : String), chainTerm tags n x = true →
    ∃ k, k < n ∧ ∃ r, iterUp tags k x = some r ∧
      treeParent tags r = none := by
  intro n
  induction n with
  | zero => intro x h; cases h
  | succ n ih =>
    intro x h
    unfold chainTerm at h
    cases hp : treeParent tags x with
    | none => exact ⟨0, Nat.succ_pos n, x, rfl, hp⟩
    | some p =>
      rw [hp] at h
      simp only [] at h
      obtain ⟨k, hk, r, hit, hroot⟩ := ih p h
      exact ⟨k + 1, Nat.succ_lt_succ hk, r, by simp [iterUp, hp, hit], hroot⟩

/-- An upward chain hits a root at most once: the hit index is unique. -/
theorem root_hit_unique (tags : List OrganizationTag) (x : String)
    {j k : Nat} {r r' : String}
    (hk : iterUp tags k x = some r) (hr : treeParent tags r = none)
    (hj : iterUp tags j x = some r') (hr' : treeParent tags r' = none) :
    j = k := by
  rcases Nat.lt_trichotomy j k with h | h | h
  · exfalso
    have hdecomp := iterUp_add tags (k - j) j x
    rw [Nat.sub_add_cancel (Nat.le_of_lt h), hk, hj] at hdecomp
    obtain ⟨m, hm⟩ : ∃ m, k - j = m + 1 := ⟨k - j - 1, by omega⟩
    rw [hm] at hdecomp
    simp only [Option.bind] at hdecomp
    rw [iterUp_root_stop tags r' hr' m] at hdecomp
    cases hdecomp
  · exact h
  · exfalso
    have hdecomp := iterUp_add tags (j - k) k x
    rw [Nat.sub_add_cancel (Nat.le_of_lt h), hj, hk] at hdecomp
    obtain ⟨m, hm⟩ : ∃ m, j - k = m + 1 := ⟨j - k - 1, by omega⟩
    rw [hm] at hdecomp
    simp only [Option.bind] at hdecomp
    rw [iterUp_root_stop tags r hr m] at hdecomp
    cases hdecomp

/-- Upward chains stay inside the stored ids. -/
theorem iterUp_mem_ids (tags : List OrganizationTag) :
    ∀ (k : Nat) (x r : String), x ∈ tags.map (fun t => t.tagID) →
    iterUp tags k x = some r → r ∈ tags.map (fun t => t.tagID) := by
  intro k
  induction k with
  | zero =>
    intro x r hx h
    simp only [iterUp] at h
    cases h
    exact hx
  | succ k ih =>
    intro x r hx h
    rw [iterUp_head tags k x] at h
    cases hp : treeParent tags x with
    | none =>
      rw [hp] at h
      exact Option.noConfusion h
    | some p =>
      rw [hp] at h
      exact ih p r (treeParent_mem_ids tags x p hp) h

/-- Counting an element across a `flatMap` sums the per-piece counts. -/
theorem count_flatMap {α β : Type} [BEq α] (x : α) (l : List β)
    (f : β → List α) :
    ((l.flatMap f).count x) = (l.map (fun b => (f b).count x)).sum := by
  induction l with
  | nil => simp
  | cons b l ih => simp [List.flatMap_cons, List.count_append, ih]

/-- Counting with a disjunction of pointwise-disjoint predicates adds the
two counts. -/
theorem countP_or_disjoint {α : Type} (P Q : α → Bool) :
    ∀ (K : List α), (∀ k ∈ K, ¬(P k = true ∧ Q k = true)) →
    K.countP (fun k => P k || Q k) = K.countP P + K.countP Q := by
  intro K
  induction K with
  | nil => intro _; simp
  | cons k K ih =>
    intro hdis
    have hrest := ih (fun a ha => hdis a (List.mem_cons_of_mem _ ha))
    cases hP : P k <;> cases hQ : Q k
    · (simp [List.countP_cons, hP, hQ, hrest]; try omega)
    · (simp [List.countP_cons, hP, hQ, hrest]; try omega)
    · (simp [List.countP_cons, hP, hQ, hrest]; try omega)
    · exact absurd ⟨hP, hQ⟩ (hdis k (List.mem_cons_self _ _))

/-- Summing, over a duplicate-free candidate list, the number of positions
whose value hits each candidate equals the number of positions whose value
lies in the list. -/
theorem sum_countP_beq (K : List Nat) (g : Nat → Option String) :
    ∀ (C : List String), C.Nodup →
    (C.map (fun c => K.countP (fun k => g k == some c))).sum =
      K.countP (fun k =>
        match g k with
        | some c => C.contains c
        | none => false) := by
  intro C
  induction C with
  | nil =>
    intro _
    simp only [List.map_nil, List.sum_nil]
    symm
    rw [List.countP_eq_zero]
    intro k hk
    cases hg : g k <;> simp
  | cons c C ih =>
    intro hnd
    have hnc := (List.nodup_cons.mp hnd).1
    rw [List.map_cons, List.sum_cons, ih (List.nodup_cons.mp hnd).2]
    have hdis : ∀ k ∈ K, ¬((g k == some c) = true ∧
        (match g k with
         | some d => C.contains d
         | none => false) = true) := by
      intro k hk h
      obtain ⟨h1, h2⟩ := h
      cases hg : g k with
      | none =>
        rw [hg] at h1
        simp at h1
      | some d =>
        rw [hg] at h1 h2
        simp only [] at h2
        have hdc : d = c := by simpa using h1
        subst hdc
        exact hnc (by simpa using h2)
    rw [← countP_or_disjoint _ _ K hdis]
    apply List.countP_congr
    intro k hk
    cases hg : g k with
    | none => simp
    | some d => simp [List.contains_cons]

/-- Splitting a `countP` over `range (n + 1)` into position `0` and the
shifted rest. -/
theorem countP_range_succ (n : Nat) (p : Nat → Bool) :
    (List.range (n + 1)).countP p =
      (List.range n).countP (fun k => p (k + 1)) +
        (if p 0 then 1 else 0) := by
  rw [List.range_succ_eq_map, List.countP_cons, List.countP_map]
  congr 1

/-- Counting an id in a read-out subtree: one occurrence per chain length
below the fuel whose upward chain from `x` ends at the subtree root `r`. -/
theorem count_subtreeIds (tags : List OrganizationTag)
    (hnd : (tags.map (fun t => t.tagID)).Nodup) :
    ∀ (fuel : Nat) (x r : String),
    (subtreeIds tags fuel r).count x =
      (List.range fuel).countP (fun k => iterUp tags k x == some r) := by
  intro fuel
  induction fuel with
  | zero => intro x r; simp [subtreeIds]
  | succ fuel ih =>
    intro x r
    have hstep : subtreeIds tags (fuel + 1) r =
        r :: (treeChildren tags r).flatMap (subtreeIds tags fuel) := rfl
    rw [hstep, List.count_cons, count_flatMap]
    have hmapeq : (treeChildren tags r).map
        (fun c => (subtreeIds tags fuel c).count x) =
        (treeChildren tags r).map (fun c => (List.range fuel).countP
          (fun k => iterUp tags k x == some c)) :=
      List.map_congr_left (fun c _ => ih x c)
    rw [hmapeq,
      sum_countP_beq (List.range fuel) (fun k => iterUp tags k x)
        (treeChildren tags r) (treeChildren_nodup tags r hnd)]
    have hpt : ∀ k ∈ List.range fuel,
        ((match iterUp tags k x with
          | some c => (treeChildren tags r).contains c
          | none => false) = true) ↔
        ((iterUp tags (k + 1) x == some r) = true) := by
      intro k _
      rw [iterUp_succ]
      cases hg : iterUp tags k x with
      | none => simp
      | some c =>
        simp only [Option.bind]
        constructor
        · intro hcon
          have hc : c ∈ treeChildren tags r := by simpa using hcon
          have hpar := (mem_treeChildren_iff tags hnd r c).mp hc
          simp [hpar]
        · intro hbeq
          have hpar : treeParent tags c = some r := by simpa using hbeq
          have hc := (mem_treeChildren_iff tags hnd r c).mpr hpar
          simpa using hc
    rw [List.countP_congr hpt, countP_range_succ]
    have h0 : (iterUp tags 0 x == some r) = (r == x) := by
      rw [iterUp_zero]
      exact Bool.beq_comm
    rw [h0]

/-- Every id in a read-out subtree rooted at a stored id is a stored id. -/
theorem subtreeIds_subset_ids (tags : List OrganizationTag) :
    ∀ (fuel : Nat) (r y : String), r ∈ tags.map (fun t => t.tagID) →
    y ∈ subtreeIds tags fuel r → y ∈ tags.map (fun t => t.tagID) := by
  intro fuel
  induction fuel with
  | zero =>
    intro r y hr hy
    simp [subtreeIds] at hy
  | succ fuel ih =>
    intro r y hr hy
    have hstep : subtreeIds tags (fuel + 1) r =
        r :: (treeChildren tags r).flatMap (subtreeIds tags fuel) := rfl
    rw [hstep] at hy
    rcases List.mem_cons.mp hy with rfl | hy
    · exact hr
    · obtain ⟨c, hc, hyc⟩ := List.mem_flatMap.mp hy
      exact ih c y (treeChildren_subset_ids tags r c hc) hyc

/-- Every id of the read-out forest is a stored id. -/
theorem getTreeIds_subset_ids (tags : List OrganizationTag) (y : String)
    (hy : y ∈ getTreeIds tags) : y ∈ tags.map (fun t => t.tagID) := by
  unfold getTreeIds at hy
  obtain ⟨t, ht, hyt⟩ := List.mem_flatMap.mp hy
  have htm : t ∈ tags := by
    unfold treeRootTags at ht
    exact (List.mem_filter.mp ht).1
  exact subtreeIds_subset_ids tags tags.length t.tagID y
    (List.mem_map_of_mem _ htm) hyt

/-- With distinct ids and terminating parent chains, each stored id appears
exactly once in the read-out forest. -/
theorem count_getTreeIds_of_mem (tags : List OrganizationTag)
    (hnd : (tags.map (fun t => t.tagID)).Nodup)
    (hacy : acyclic tags = true) (x : String)
    (hx : x ∈ tags.map (fun t => t.tagID)) :
    (getTreeIds tags).count x = 1 := by
  obtain ⟨t, htmem, rfl⟩ := List.mem_map.mp hx
  have hx' : t.tagID ∈ tags.map (fun u => u.tagID) :=
    List.mem_map_of_mem _ htmem
  unfold getTreeIds
  rw [count_flatMap]
  have h1 : (treeRootTags tags).map
      (fun u => (subtreeIds tags tags.length u.tagID).count t.tagID) =
      (rootIds tags).map (fun r => (List.range tags.length).countP
        (fun k => iterUp tags k t.tagID == some r)) := by
    unfold rootIds
    rw [List.map_map]
    exact List.map_congr_left
      (fun u _ => count_subtreeIds tags hnd tags.length t.tagID u.tagID)
  rw [h1, sum_countP_beq (List.range tags.length)
    (fun k => iterUp tags k t.tagID) (rootIds tags) (rootIds_nodup tags hnd)]
  have hterm : chainTerm tags tags.length t.tagID = true := by
    unfold acyclic at hacy
    exact List.all_eq_true.mp hacy t htmem
  obtain ⟨k₀, hk₀, r₀, hit, hroot⟩ :=
    chainTerm_spec tags tags.length t.tagID hterm
  have hr₀ : r₀ ∈ rootIds tags := (mem_rootIds_iff tags hnd r₀).mpr
    ⟨iterUp_mem_ids tags k₀ t.tagID r₀ hx' hit, hroot⟩
  have hpt : ∀ k ∈ List.range tags.length,
      ((match iterUp tags k t.tagID with
        | some c => (rootIds tags).contains c
        | none => false) = true) ↔ ((k == k₀) = true) := by
    intro k _
    constructor
    · intro h
      cases hg : iterUp tags k t.tagID with
      | none => rw [hg] at h; simp at h
      | some c =>
        rw [hg] at h
        simp only [] at h
        have hc : c ∈ rootIds tags := by simpa using h
        have hcroot := ((mem_rootIds_iff tags hnd c).mp hc).2
        have hkk : k = k₀ := root_hit_unique tags t.tagID hit hroot hg hcroot
        simp [hkk]
    · intro h
      have hkk : k = k₀ := by simpa using h
      subst hkk
      rw [hit]
      simp only []
      simpa using hr₀
  rw [List.countP_congr hpt]
  have hcount : (List.range tags.length).countP (fun k => k == k₀) =
      (List.range tags.length).count k₀ := rfl
  rw [hcount]
  exact List.count_eq_one_of_mem (List.nodup_range _) (List.mem_range.mpr hk₀)

/-- C4 (amended): for every snapshot with distinct ids whose present-parent
links form no cycle, the forest returned by `GetTree` carries exactly the
snapshot's `N` tag ids — a permutation of them, hence exactly `N` nodes,
none dropped and none repeated — and a tag whose declared parent does not
exist in the snapshot is placed as a root rather than dropped. -/
theorem c4_tree_total_acyclic (tags : List OrganizationTag)
    (hnd : (tags.map (fun t => t.tagID)).Nodup)
    (hacy : acyclic tags = true) :
    (getTreeIds tags).Perm (tags.map (fun t => t.tagID)) ∧
    (getTreeIds tags).length = tags.length ∧
    (getTreeIds tags).Nodup ∧
    (∀ t ∈ tags, ∀ p, t.parentTag = some p →
      p ∉ tags.map (fun u => u.tagID) → t ∈ treeRootTags tags) := by
  have hperm : (getTreeIds tags).Perm (tags.map (fun t => t.tagID)) := by
    rw [List.perm_iff_count]
    intro a
    by_cases ha : a ∈ tags.map (fun t => t.tagID)
    · rw [count_getTreeIds_of_mem tags hnd hacy a ha,
        List.count_eq_one_of_mem hnd ha]
    · rw [List.count_eq_zero.mpr ha,
        List.count_eq_zero.mpr (fun hmem => ha (getTreeIds_subset_ids tags a hmem))]
  refine ⟨hperm, ?_, ?_, ?_⟩
  · rw [hperm.length_eq, List.length_map]
  · exact (hperm.nodup_iff).mpr hnd
  · intro t ht p hp hnp
    unfold treeRootTags
    refine List.mem_filter.mpr ⟨ht, ?_⟩
    have hfalse : hasPresentParent tags t = false := by
      cases hcase : hasPresentParent tags t
      · rfl
      · obtain ⟨q, hq, -, hqmem⟩ := (hasPresentParent_iff tags t).mp hcase
        rw [hp] at hq
        cases hq
        exact absurd hqmem hnp
    rw [hfalse]
    rfl

/-- C4 counterexample: on the two-tag snapshot in which `a` and `b` name
each other as parents (a state the service can reach by creating `b` under
`a` and then re-parenting `a` under `b`, since only direct self-parenting is
rejected), `GetTree` returns an empty root list: the forest holds 0 of the
2 stored tags, so it does not contain exactly `N` nodes for every snapshot
of `N` tags. -/
theorem c4_counterexample :
    treeRootTags [⟨"a", "A", "", some "b", "u", "u", 0, 0⟩,
        ⟨"b", "B", "", some "a", "u", "u", 0, 0⟩] = [] ∧
    getTreeIds [⟨"a", "A", "", some "b", "u", "u", 0, 0⟩,
        ⟨"b", "B", "", some "a", "u", "u", 0, 0⟩] = [] ∧
    ([⟨"a", "A", "", some "b", "u", "u", 0, 0⟩,
        ⟨"b", "B", "", some "a", "u", "u", 0, 0⟩] :
        List OrganizationTag).length = 2 := by
  refine ⟨?_, ?_, ?_⟩ <;> rfl

/-! ## Concrete witnesses -/

/-- Witness for C1 at a two-tag store: deleting the parent is refused. -/
theorem c1_witness :
    svcDelete [⟨"a", "A", "", none, "u", "u", 0, 0⟩,
        ⟨"b", "B", "", some "a", "u", "u", 0, 0⟩] "a" =
      .error .orgTagHasChildren :=
  c1_protect_delete_refuses
    [⟨"a", "A", "", none, "u", "u", 0, 0⟩,
     ⟨"b", "B", "", some "a", "u", "u", 0, 0⟩]
    ⟨"a", "A", "", none, "u", "u", 0, 0⟩
    ⟨"b", "B", "", some "a", "u", "u", 0, 0⟩
    (by decide) (by decide) (by decide) (by decide) (by decide)

/-- Witness for C2 at the three-tag chain `a ← b ← c`: reparent-deleting
`b` hands `c` to `a`. -/
theorem c2_witness :
    ∃ s' , repoDeleteAndReparentChildren
        [⟨"a", "A", "", none, "u", "u", 0, 0⟩,
         ⟨"b", "B", "", some "a", "u", "u", 0, 0⟩,
         ⟨"c", "C", "", some "b", "u", "u", 0, 0⟩] "b" 5 = .ok s' ∧
      (∀ u ∈ s', u.tagID ≠ "b") ∧
      s'.length + 1 = 3 ∧
      (∀ c ∈ [(⟨"a", "A", "", none, "u", "u", 0, 0⟩ : OrganizationTag),
         ⟨"b", "B", "", some "a", "u", "u", 0, 0⟩,
         ⟨"c", "C", "", some "b", "u", "u", 0, 0⟩], c.tagID ≠ "b" →
        (c.parentTag = some "b" →
          { c with parentTag := some "a", updatedAt := 5 } ∈ s') ∧
        (c.parentTag ≠ some "b" → c ∈ s')) ∧
      ((∀ c ∈ [(⟨"a", "A", "", none, "u", "u", 0, 0⟩ : OrganizationTag),
         ⟨"b", "B", "", some "a", "u", "u", 0, 0⟩,
         ⟨"c", "C", "", some "b", "u", "u", 0, 0⟩], c.parentTag ≠ some "b") →
        s' = List.filter (fun t => !(t.tagID == "b"))
          [⟨"a", "A", "", none, "u", "u", 0, 0⟩,
           ⟨"b", "B", "", some "a", "u", "u", 0, 0⟩,
           ⟨"c", "C", "", some "b", "u", "u", 0, 0⟩]) :=
  c2_reparent_delete
    [⟨"a", "A", "", none, "u", "u", 0, 0⟩,
     ⟨"b", "B", "", some "a", "u", "u", 0, 0⟩,
     ⟨"c", "C", "", some "b", "u", "u", 0, 0⟩]
    ⟨"b", "B", "", some "a", "u", "u", 0, 0⟩ 5
    (by decide) (by decide) (by decide)

/-- Witness for C3 at the chain `a ← b ← c` with seed `a`. -/
theorem c3_witness :
    ∃ res : List OrganizationTag,
      resolveEffectiveTags
        [⟨"a", "A", "", none, "u", "u", 0, 0⟩,
         ⟨"b", "B", "", some "a", "u", "u", 0, 0⟩,
         ⟨"c", "C", "", some "b", "u", "u", 0, 0⟩] ["a"] = some (.ok res) ∧
      ∀ t : OrganizationTag, t ∈ res ↔
        (t ∈ [(⟨"a", "A", "", none, "u", "u", 0, 0⟩ : OrganizationTag),
          ⟨"b", "B", "", some "a", "u", "u", 0, 0⟩,
          ⟨"c", "C", "", some "b", "u", "u", 0, 0⟩] ∧
         Reach [⟨"a", "A", "", none, "u", "u", 0, 0⟩,
          ⟨"b", "B", "", some "a", "u", "u", 0, 0⟩,
          ⟨"c", "C", "", some "b", "u", "u", 0, 0⟩] ["a"] t.tagID) :=
  c3_resolver_exact_closure
    [⟨"a", "A", "", none, "u", "u", 0, 0⟩,
     ⟨"b", "B", "", some "a", "u", "u", 0, 0⟩,
     ⟨"c", "C", "", some "b", "u", "u", 0, 0⟩] ["a"]
    (by decide) (by decide)
    (by
      intro id h
      induction h with
      | seed hs =>
        rw [List.mem_singleton] at hs
        subst hs
        decide
      | child hp hc ih => exact childrenOf_subset_ids _ _ _ hc)

/-- Witness for C4 (amended) at a snapshot with an orphan parent (`a` names
the absent `zz`). -/
theorem c4_witness :
    (getTreeIds [⟨"a", "A", "", some "zz", "u", "u", 0, 0⟩,
        ⟨"b", "B", "", some "a", "u", "u", 0, 0⟩,
        ⟨"c", "C", "", none, "u", "u", 0, 0⟩]).Perm
      (([⟨"a", "A", "", some "zz", "u", "u", 0, 0⟩,
        ⟨"b", "B", "", some "a", "u", "u", 0, 0⟩,
        ⟨"c", "C", "", none, "u", "u", 0, 0⟩] :
          List OrganizationTag).map (fun t => t.tagID)) ∧
    (getTreeIds [⟨"a", "A", "", some "zz", "u", "u", 0, 0⟩,
        ⟨"b", "B", "", some "a", "u", "u", 0, 0⟩,
        ⟨"c", "C", "", none, "u", "u", 0, 0⟩]).length = 3 ∧
    (getTreeIds [⟨"a", "A", "", some "zz", "u", "u", 0, 0⟩,
        ⟨"b", "B", "", some "a", "u", "u", 0, 0⟩,
        ⟨"c", "C", "", none, "u", "u", 0, 0⟩]).Nodup ∧
    (∀ t ∈ [(⟨"a", "A", "", some "zz", "u", "u", 0, 0⟩ : OrganizationTag),
        ⟨"b", "B", "", some "a", "u", "u", 0, 0⟩,
        ⟨"c", "C", "", none, "u", "u", 0, 0⟩], ∀ p, t.parentTag = some p →
      p ∉ ([⟨"a", "A", "", some "zz", "u", "u", 0, 0⟩,
        ⟨"b", "B", "", some "a", "u", "u", 0, 0⟩,
        ⟨"c", "C", "", none, "u", "u", 0, 0⟩] :
          List OrganizationTag).map (fun u => u.tagID) →
      t ∈ treeRootTags [⟨"a", "A", "", some "zz", "u", "u", 0, 0⟩,
        ⟨"b", "B", "", some "a", "u", "u", 0, 0⟩,
        ⟨"c", "C", "", none, "u", "u", 0, 0⟩]) :=
  c4_tree_total_acyclic
    [⟨"a", "A", "", some "zz", "u", "u", 0, 0⟩,
     ⟨"b", "B", "", some "a", "u", "u", 0, 0⟩,
     ⟨"c", "C", "", none, "u", "u", 0, 0⟩]
    (by decide) (by decide)

/-- Witness for C6: seed `a` names no stored tag, resolution fails. -/
theorem c6_witness :
    resolveEffectiveTags [⟨"b", "B", "", some "a", "u", "u", 0, 0⟩] ["a"] =
      some (.error .orgTagNotFound) :=
  c6_dangling_reachable_fails [⟨"b", "B", "", some "a", "u", "u", 0, 0⟩] ["a"]
    ⟨"a", Reach.seed (by decide), by decide⟩

/-- Witness for C7: a second create under the existing id `a` is refused. -/
theorem c7_witness :
    svcCreate [⟨"a", "A", "", none, "u", "u", 0, 0⟩] "a" "N" "d" none "bob" 7 =
      .error .orgTagAlreadyExists :=
  c7_create_duplicate_refused [⟨"a", "A", "", none, "u", "u", 0, 0⟩]
    "a" "N" "d" none "bob" 7 ⟨"a", "A", "", none, "u", "u", 0, 0⟩
    (by decide) (by decide) (by decide) (by decide) (by decide)

/-- Witness for C8: a blank id is rejected with `InvalidInput` on the empty
store. -/
theorem c8_witness :
    svcCreate [] " " "Name" "" none "bob" 0 = .error .invalidInput :=
  c8_create_validation_fails_fast [] " " "Name" "" none "bob" 0
    (Or.inl (by decide))

/-- Witness for C9 at a one-row store updated under its own id. -/
theorem c9_witness :
    ((∀ t ∈ [(⟨"a", "A", "", none, "u", "u", 0, 0⟩ : OrganizationTag)],
        t.tagID ≠ "a") →
      repoUpdate [⟨"a", "A", "", none, "u", "u", 0, 0⟩]
        ⟨"a", "N", "D", some "p", "v", "v", 9, 9⟩ 7 =
          .error .recordNotFound) ∧
    ((∃ t ∈ [(⟨"a", "A", "", none, "u", "u", 0, 0⟩ : OrganizationTag)],
        t.tagID = "a") →
      ∃ f : OrganizationTag → OrganizationTag,
        repoUpdate [⟨"a", "A", "", none, "u", "u", 0, 0⟩]
          ⟨"a", "N", "D", some "p", "v", "v", 9, 9⟩ 7 =
          .ok ([(⟨"a", "A", "", none, "u", "u", 0, 0⟩ :
            OrganizationTag)].map f) ∧
        (∀ t, t.tagID ≠ "a" → f t = t) ∧
        (∀ t, t.tagID = "a" →
          (f t).tagID = t.tagID ∧ (f t).createdBy = t.createdBy ∧
          (f t).createdAt = t.createdAt ∧ (f t).name = "N" ∧
          (f t).description = "D" ∧ (f t).parentTag = some "p" ∧
          (f t).updatedBy = "v" ∧ (f t).updatedAt = 7)) :=
  c9_update_frame [⟨"a", "A", "", none, "u", "u", 0, 0⟩]
    ⟨"a", "N", "D", some "p", "v", "v", 9, 9⟩ 7 (by decide)

/-- Witness for C10 with a repeated seed: the result lists `a` and `b` once
each. -/
theorem c10_witness :
    (([⟨"a", "A", "", none, "u", "u", 0, 0⟩,
       ⟨"b", "B", "", some "a", "u", "u", 0, 0⟩] :
        List OrganizationTag).map (fun t => t.tagID)).Nodup ∧
    ([⟨"a", "A", "", none, "u", "u", 0, 0⟩,
      ⟨"b", "B", "", some "a", "u", "u", 0, 0⟩] :
        List OrganizationTag).Nodup :=
  c10_no_duplicate_results
    [⟨"a", "A", "", none, "u", "u", 0, 0⟩,
     ⟨"b", "B", "", some "a", "u", "u", 0, 0⟩] ["a", "a", "b"]
    [⟨"a", "A", "", none, "u", "u", 0, 0⟩,
     ⟨"b", "B", "", some "a", "u", "u", 0, 0⟩] rfl
